import Mathlib

/-!
Verification of the `simple-create-lwc` extension (`src/extension.ts`).

The repository has a single pure helper, `normalizeComponentName`, and one
command handler (registered in `activate`) that resolves a target directory,
prompts for a component name and a set of file types, creates a component
directory and writes template files.  Both are embedded shallowly below:
strings are Lean `String`s (reasoned about through their `List Char` data),
the two regex replaces of `normalizeComponentName` become recursive functions
on character lists, and the handler becomes a pure function from prompt
outcomes and a filesystem implementation to a final filesystem state plus the
list of notifications shown.

Character case operations: the source calls JavaScript `toUpperCase` /
`toLowerCase` on single characters matched by the ASCII classes `[a-z]` and
`[A-Z]`, and on `camelCase[0]`.  Lean's `Char.toUpper` / `Char.toLower`
shift exactly the 26 basic latin letters and leave every other character
unchanged, which agrees with JavaScript on all ASCII characters; every name
that reaches `normalizeComponentName` in the program has been validated
against `^[a-zA-Z][a-zA-Z0-9-]*$`, so is ASCII.
-/

namespace SimpleCreateLWC

/-- One global pass of the first replace in `normalizeComponentName`, with the
global regex `-([a-z])` and replacement `char.toUpperCase()`: scanning left to
right, a hyphen immediately
followed by a lowercase ASCII letter is replaced by that letter uppercased and
scanning resumes after the pair; any other character is copied verbatim. -/
def collapseHyphens : List Char → List Char
  | [] => []
  | c :: rest =>
    if c = '-' then
      match rest with
      | [] => ['-']
      | c2 :: rest2 =>
        if c2.isLower then c2.toUpper :: collapseHyphens rest2
        else '-' :: collapseHyphens (c2 :: rest2)
    else c :: collapseHyphens rest

/-- The second, anchored replace, with regex `^([A-Z])` and replacement
`char.toLowerCase()`:
if the first character is an uppercase ASCII letter it is lowercased, otherwise
the string is unchanged. -/
def lowerFirstIfUpper : List Char → List Char
  | [] => []
  | c :: rest => if c.isUpper then c.toLower :: rest else c :: rest

/-- Result record of `normalizeComponentName`. -/
structure NormalizedName where
  camelCase : String
  pascalCase : String
deriving Repr, DecidableEq

/-- Shallow embedding of `normalizeComponentName` (src/extension.ts lines
100-113).  `camelCase` is the input after the two regex replaces; `pascalCase`
is `camelCase[0].toUpperCase() + camelCase.slice(1)`.  The result is `none`
exactly when `camelCase` is empty, where the JavaScript expression
`camelCase[0].toUpperCase()` throws a `TypeError` instead of producing a
value. -/
def normalizeComponentName (name : String) : Option NormalizedName :=
  match lowerFirstIfUpper (collapseHyphens name.data) with
  | [] => none
  | c :: rest => some ⟨⟨c :: rest⟩, ⟨c.toUpper :: rest⟩⟩

example : normalizeComponentName "my-component" =
    some ⟨"myComponent", "MyComponent"⟩ := by decide

example : normalizeComponentName "MyComponent" =
    some ⟨"myComponent", "MyComponent"⟩ := by decide

example : normalizeComponentName "x" = some ⟨"x", "X"⟩ := by decide

example : normalizeComponentName "my-2nd" = some ⟨"my-2nd", "My-2nd"⟩ := by decide

example : normalizeComponentName "" = none := by decide

/-! ## Specification-side definitions

These follow the wording of the spec (§3, §8) for comparison with the code:
kebab-case inputs are a non-empty list of words joined by single hyphens, and
the expected camel case is the first word followed by every later word with
its first letter capitalized. -/

/-- Word with its first letter uppercased (spec wording: "with its first
letter capitalized"). -/
def capitalizeFirst : List Char → List Char
  | [] => []
  | c :: r => c.toUpper :: r

/-- Concatenation of the later words, each capitalized (spec side). -/
def camelTail : List (List Char) → List Char
  | [] => []
  | w :: ws => capitalizeFirst w ++ camelTail ws

/-- Words joined by single hyphens, at the character level. -/
def kebabData : List (List Char) → List Char
  | [] => []
  | [w] => w
  | w :: ws => w ++ '-' :: kebabData ws

/-- Words joined by single hyphens: the input `word1-word2-...-wordN`. -/
def kebabJoin : List String → String
  | [] => ""
  | [w] => w
  | w :: ws => w ++ "-" ++ kebabJoin ws

/-- A non-empty word consisting only of lowercase ASCII letters. -/
def isLowerWord (w : String) : Bool :=
  !w.data.isEmpty && w.data.all Char.isLower

/-- Expected camel case of a kebab-case word list (spec §8): the first word,
then each subsequent word capitalized, concatenated. -/
def specCamelCase (ws : List String) : String :=
  match ws with
  | [] => ""
  | w :: rest => ⟨w.data ++ camelTail (rest.map String.data)⟩

/-- Expected pascal case: the same string with its first letter uppercase. -/
def specPascalCase (ws : List String) : String :=
  ⟨capitalizeFirst (specCamelCase ws).data⟩

/-- The validation regex `^[a-zA-Z][a-zA-Z0-9-]*$` of the name input box, as
a predicate on strings. -/
def validNameRegex (s : String) : Bool :=
  match s.data with
  | [] => false
  | c :: rest =>
    (c.isUpper || c.isLower)
      && rest.all (fun d => d.isUpper || d.isLower || d.isDigit || d = '-')

/-! ## The command handler

`activate` registers one command whose handler resolves a target directory,
prompts for a name (`showInputBox`, validated against
`^[a-zA-Z][a-zA-Z0-9-]*$`), normalizes it, prompts for the file types
(`showQuickPick` over JS, HTML, CSS), creates the component directory when it
does not already exist, writes one template file per selected type, and shows
one notification.  The handler body is wrapped in a single try/catch that
turns any thrown error into one error notification.

Prompt outcomes are inputs of the model (`PromptInputs`): a dismissed prompt
is `none`, matching the `undefined` the host returns.  The filesystem is a
parameter `FSImpl σ`: each operation either succeeds with a new state or
fails with an error message, modelling a thrown `Error` whose `message` the
catch block reads. -/

/-- The three quick-pick options, in the order offered. -/
inductive FileLabel
  | JS
  | HTML
  | CSS
deriving Repr, DecidableEq

/-- The file extension used in the written file's name:
`file.label.toLowerCase()`. -/
def fileExt : FileLabel → String
  | .JS => "js"
  | .HTML => "html"
  | .CSS => "css"

/-- The template content written for a selected file type (the JS template
mentions the pascal-case class name). -/
def fileContent (pascalCaseName : String) : FileLabel → String
  | .JS => "import { LightningElement } from 'lwc';\n\nexport default class "
      ++ pascalCaseName ++ " extends LightningElement {}"
  | .HTML => "<template>\n\n</template>"
  | .CSS => ""

/-- A user-visible notification emitted by the handler
(`showErrorMessage` / `showInformationMessage`). -/
inductive Event
  | showError (msg : String)
  | showInfo (msg : String)
deriving Repr, DecidableEq

/-- Outcomes of the interactive steps, as seen by the handler: the resolved
target directory (or `none` when no directory could be determined), the
result of the name input box (`none` = dismissed), and the result of the
file-type quick pick (`none` = dismissed; `some []` = confirmed with nothing
selected). -/
structure PromptInputs where
  targetDir : Option String
  rawName : Option String
  fileOptions : Option (List FileLabel)

/-- A filesystem implementation: `existsSync` is a pure query; `mkdirSync`
and `writeFileSync` either return the updated state or fail with the thrown
error's message. -/
structure FSImpl (σ : Type) where
  existsSync : σ → String → Bool
  mkdirSync : σ → String → Except String σ
  writeFileSync : σ → String → String → Except String σ

/-- The `fileOptions.forEach` loop of the handler: writes
`<camelCase>.<ext>` files one after another inside `componentDir`; a thrown
write error aborts the loop, returning the state reached so far and the
error message. -/
def writeFiles (impl : FSImpl σ) (componentDir camelCaseName pascalCaseName : String) :
    σ → List FileLabel → σ × Option String
  | st, [] => (st, none)
  | st, f :: rest =>
    match impl.writeFileSync st (componentDir ++ "/" ++ camelCaseName ++ "." ++ fileExt f)
        (fileContent pascalCaseName f) with
    | .error m => (st, some m)
    | .ok st2 => writeFiles impl componentDir camelCaseName pascalCaseName st2 rest

/-- Shallow embedding of the command handler registered by `activate`
(src/extension.ts lines 8-93).  Returns the final filesystem state and the
notifications shown, in order.  Path joins are modelled with `"/"`. -/
def runCreateLWC (impl : FSImpl σ) (st : σ) (inp : PromptInputs) : σ × List Event :=
  match inp.targetDir with
  | none => (st, [Event.showError "No target directory found."])
  | some targetDir =>
    match inp.rawName with
    | none => (st, [])
    | some rawName =>
      if rawName = "" then (st, [])
      else
        match normalizeComponentName rawName with
        | none =>
          -- Unreachable for the non-empty names the guard above lets through:
          -- mirrors the TypeError thrown by `camelCase[0].toUpperCase()` being
          -- caught by the handler's catch block.
          (st, [Event.showError
            "Error creating LWC: Cannot read properties of undefined (reading 'toUpperCase')"])
        | some n =>
          match inp.fileOptions with
          | none => (st, [])
          | some fileOptions =>
            if fileOptions = [] then (st, [])
            else
              let componentDir := targetDir ++ "/" ++ n.camelCase
              match (if impl.existsSync st componentDir then Except.ok st
                     else impl.mkdirSync st componentDir) with
              | .error m => (st, [Event.showError ("Error creating LWC: " ++ m)])
              | .ok st1 =>
                match writeFiles impl componentDir n.camelCase n.pascalCase st1 fileOptions with
                | (st2, some m) => (st2, [Event.showError ("Error creating LWC: " ++ m)])
                | (st2, none) =>
                  (st2, [Event.showInfo ("LWC component '" ++ n.camelCase
                    ++ "' created in '" ++ componentDir ++ "'.")])

/-! ## A concrete in-memory filesystem

Models the Node `fs` collaborator: `existsSync` reports whether a path is a
known directory or file, `mkdirSync` records a directory (throwing `EEXIST`
on an existing path, which the handler's guard avoids), and `writeFileSync`
creates or silently overwrites the file at a path.  File contents are looked
up with `getFile`; a write shadows any earlier entry for the same path. -/

/-- In-memory filesystem state: directories and files (path, content). -/
structure FSState where
  dirs : List String
  files : List (String × String)
deriving Repr, DecidableEq

/-- Content of the file at `p`, if any (the most recent write wins). -/
def getFile (st : FSState) (p : String) : Option String :=
  (st.files.find? (fun e => e.1 = p)).map (fun e => e.2)

/-- Does a path name a known directory or file? -/
def pathExists (st : FSState) (p : String) : Bool :=
  st.dirs.contains p || st.files.any (fun e => e.1 = p)

/-- The in-memory `FSImpl`. -/
def memFS : FSImpl FSState where
  existsSync := pathExists
  mkdirSync st p :=
    if pathExists st p then
      .error ("EEXIST: file already exists, mkdir '" ++ p ++ "'")
    else .ok { st with dirs := p :: st.dirs }
  writeFileSync st p c := .ok { st with files := (p, c) :: st.files }

example :
    runCreateLWC memFS ⟨[], []⟩ ⟨some "root", some "my-component", some [.HTML]⟩ =
      (⟨["root/myComponent"], [("root/myComponent/myComponent.html", "<template>\n\n</template>")]⟩,
       [Event.showInfo "LWC component 'myComponent' created in 'root/myComponent'."]) := by
  decide

/-! ## Character-class facts -/

lemma isUpper_iff_toNat (c : Char) : c.isUpper = true ↔ 65 ≤ c.toNat ∧ c.toNat ≤ 90 := by
  rw [Char.isUpper]
  simp [GE.ge, UInt32.le_def, BitVec.le_def, Char.toNat, UInt32.toNat]

lemma isLower_iff_toNat (c : Char) : c.isLower = true ↔ 97 ≤ c.toNat ∧ c.toNat ≤ 122 := by
  rw [Char.isLower]
  simp [GE.ge, UInt32.le_def, BitVec.le_def, Char.toNat, UInt32.toNat]

lemma isUpper_eq_false_of_isLower (c : Char) (h : c.isLower = true) : c.isUpper = false := by
  have h1 := (isLower_iff_toNat c).1 h
  rw [← Bool.not_eq_true]
  intro h2
  have h3 := (isUpper_iff_toNat c).1 h2
  omega

lemma isLower_toLower_of_isUpper (c : Char) (h : c.isUpper = true) :
    (Char.toLower c).isLower = true := by
  have hn := (isUpper_iff_toNat c).1 h
  rw [Char.toLower]
  rw [if_pos ⟨hn.1, hn.2⟩]
  obtain ⟨h1, h2⟩ := hn
  generalize c.toNat = n at h1 h2 ⊢
  interval_cases n <;> decide

lemma ne_hyphen_of_isLower (c : Char) (h : c.isLower = true) : c ≠ '-' := by
  intro hc
  subst hc
  exact absurd h (by decide)

lemma ne_hyphen_of_isUpper (c : Char) (h : c.isUpper = true) : c ≠ '-' := by
  intro hc
  subst hc
  exact absurd h (by decide)

lemma ne_hyphen_of_isDigit (c : Char) (h : c.isDigit = true) : c ≠ '-' := by
  intro hc
  subst hc
  exact absurd h (by decide)

/-! ## Behaviour of the two replaces -/

lemma collapseHyphens_cons_of_ne (c : Char) (l : List Char) (h : c ≠ '-') :
    collapseHyphens (c :: l) = c :: collapseHyphens l := by
  rw [collapseHyphens.eq_def]
  simp only []
  rw [if_neg h]

lemma collapseHyphens_hyphen_lower (c : Char) (l : List Char) (h : c.isLower = true) :
    collapseHyphens ('-' :: c :: l) = c.toUpper :: collapseHyphens l := by
  simp [collapseHyphens, h]

lemma collapseHyphens_hyphen_not_lower (c : Char) (l : List Char) (h : c.isLower = false) :
    collapseHyphens ('-' :: c :: l) = '-' :: collapseHyphens (c :: l) := by
  simp [collapseHyphens, h]

/-- Characters that are not hyphens pass through the first replace
unchanged. -/
lemma collapseHyphens_append_of_no_hyphen (l m : List Char)
    (h : ∀ c ∈ l, c ≠ '-') :
    collapseHyphens (l ++ m) = l ++ collapseHyphens m := by
  induction l with
  | nil => rfl
  | cons c l ih =>
    rw [List.cons_append, collapseHyphens_cons_of_ne _ _ (h c (List.mem_cons_self c l))]
    rw [ih (fun d hd => h d (List.mem_cons_of_mem _ hd))]
    simp

/-- The first replace never empties a non-empty string. -/
lemma collapseHyphens_cons_shape (c : Char) (l : List Char) :
    ∃ d t, collapseHyphens (c :: l) = d :: t := by
  rw [collapseHyphens.eq_def]
  simp only []
  split
  · match l with
    | [] => exact ⟨'-', [], rfl⟩
    | c2 :: l2 =>
      by_cases h : c2.isLower = true
      · exact ⟨c2.toUpper, collapseHyphens l2, by simp [h]⟩
      · exact ⟨'-', collapseHyphens (c2 :: l2), by simp [h]⟩
  · exact ⟨c, collapseHyphens l, rfl⟩

lemma lowerFirstIfUpper_cons (c : Char) (l : List Char) :
    lowerFirstIfUpper (c :: l) = (if c.isUpper then c.toLower else c) :: l := by
  by_cases h : c.isUpper = true <;> simp [lowerFirstIfUpper, h]

lemma lowerFirstIfUpper_of_not_upper (c : Char) (l : List Char) (h : c.isUpper = false) :
    lowerFirstIfUpper (c :: l) = c :: l := by
  simp [lowerFirstIfUpper, h]

/-! ## Shape of `normalizeComponentName` -/

lemma data_ne_nil_of_ne_empty (s : String) (h : s ≠ "") : s.data ≠ [] := by
  intro hd
  exact h (String.ext (hd.trans rfl))

/-- On any non-empty input the normalizer returns a record whose pascal case
is the camel case with its first character uppercased. -/
lemma normalizeComponentName_of_ne_empty (s : String) (h : s ≠ "") :
    ∃ c rest, lowerFirstIfUpper (collapseHyphens s.data) = c :: rest ∧
      normalizeComponentName s = some ⟨⟨c :: rest⟩, ⟨c.toUpper :: rest⟩⟩ := by
  obtain ⟨c0, l0, hdata⟩ : ∃ c0 l0, s.data = c0 :: l0 := by
    cases hd : s.data with
    | nil => exact absurd hd (data_ne_nil_of_ne_empty s h)
    | cons c0 l0 => exact ⟨c0, l0, rfl⟩
  obtain ⟨d, t, hct⟩ := collapseHyphens_cons_shape c0 l0
  refine ⟨if d.isUpper then d.toLower else d, t, ?_, ?_⟩
  · rw [hdata, hct, lowerFirstIfUpper_cons]
  · rw [normalizeComponentName, hdata, hct, lowerFirstIfUpper_cons]

lemma isLowerWord_iff (w : String) :
    isLowerWord w = true ↔ w.data ≠ [] ∧ ∀ c ∈ w.data, c.isLower = true := by
  simp [isLowerWord, List.all_eq_true, List.isEmpty_iff]

/-! ## Claims about `normalizeComponentName` -/

/-- C8: `normalizeComponentName` returns a result for every non-empty input
string; on the empty string it fails (`none`), where the JavaScript code
would throw on `camelCase[0].toUpperCase()`. -/
theorem normalize_succeeds_iff_nonempty (s : String) :
    (s ≠ "" → (normalizeComponentName s).isSome = true) ∧
    normalizeComponentName "" = none := by
  refine ⟨fun h => ?_, rfl⟩
  obtain ⟨c, rest, -, h2⟩ := normalizeComponentName_of_ne_empty s h
  rw [h2]
  rfl

theorem normalize_succeeds_iff_nonempty_witness :
    ("x" ≠ "" ∧ (normalizeComponentName "x").isSome = true) ∧
      normalizeComponentName "" = none :=
  ⟨⟨by decide, (normalize_succeeds_iff_nonempty "x").1 (by decide)⟩,
   (normalize_succeeds_iff_nonempty "x").2⟩

/-- C2: for every non-empty input string the returned pascal case equals the
camel case with only its first character's case flipped to uppercase, all
other characters identical, and both strings are non-empty (in particular
for every non-empty input matching `^[a-zA-Z][a-zA-Z0-9-]*$`). -/
theorem pascal_is_camel_with_first_upper (s : String) (h : s ≠ "") :
    ∃ c rest, normalizeComponentName s = some ⟨⟨c :: rest⟩, ⟨c.toUpper :: rest⟩⟩ ∧
      (⟨c :: rest⟩ : String) ≠ "" ∧ (⟨c.toUpper :: rest⟩ : String) ≠ "" := by
  obtain ⟨c, rest, -, h2⟩ := normalizeComponentName_of_ne_empty s h
  refine ⟨c, rest, h2, ?_, ?_⟩ <;>
    · intro he
      have hd := congrArg String.data he
      simp at hd

theorem pascal_is_camel_with_first_upper_witness :
    "my-component" ≠ "" ∧
      ∃ c rest, normalizeComponentName "my-component" =
          some ⟨⟨c :: rest⟩, ⟨c.toUpper :: rest⟩⟩ ∧
        (⟨c :: rest⟩ : String) ≠ "" ∧ (⟨c.toUpper :: rest⟩ : String) ≠ "" :=
  ⟨by decide, pascal_is_camel_with_first_upper "my-component" (by decide)⟩

/-- C6: for every input matching the validation regex the camel case starts
with a lowercase letter, and when the input starts with an uppercase letter
the camel case starts with exactly that letter lowercased. -/
theorem camel_first_char_lowercase (s : String) (h : validNameRegex s = true) :
    ∃ n, normalizeComponentName s = some n ∧
      (∃ c rest, n.camelCase.data = c :: rest ∧ c.isLower = true) ∧
      (∀ d t, s.data = d :: t → d.isUpper = true →
        ∃ rest, n.camelCase.data = d.toLower :: rest) := by
  rw [validNameRegex] at h
  cases hd : s.data with
  | nil => rw [hd] at h; simp at h
  | cons d t =>
    rw [hd] at h
    simp only [Bool.and_eq_true, Bool.or_eq_true] at h
    have hne : d ≠ '-' := by
      rcases h.1 with hu | hl
      · exact ne_hyphen_of_isUpper d hu
      · exact ne_hyphen_of_isLower d hl
    have hnorm : normalizeComponentName s =
        some ⟨⟨(if d.isUpper then d.toLower else d) :: collapseHyphens t⟩,
              ⟨(if d.isUpper then d.toLower else d).toUpper :: collapseHyphens t⟩⟩ := by
      rw [normalizeComponentName, hd, collapseHyphens_cons_of_ne _ _ hne,
        lowerFirstIfUpper_cons]
    by_cases hu : d.isUpper = true
    · refine ⟨_, hnorm, ⟨d.toLower, collapseHyphens t, by simp [hu], ?_⟩, ?_⟩
      · exact isLower_toLower_of_isUpper d hu
      · intro d' t' hd' _
        injection hd' with h1 h2
        subst h1
        exact ⟨collapseHyphens t, by simp [hu]⟩
    · have hl : d.isLower = true := by
        rcases h.1 with h1 | h1
        · exact absurd h1 hu
        · exact h1
      refine ⟨_, hnorm, ⟨d, collapseHyphens t, by simp [hu], hl⟩, ?_⟩
      intro d' t' hd' hu'
      injection hd' with h1 h2
      subst h1
      exact absurd hu' hu

theorem camel_first_char_lowercase_witness :
    validNameRegex "MyComponent" = true ∧
      ∃ n, normalizeComponentName "MyComponent" = some n ∧
        (∃ c rest, n.camelCase.data = c :: rest ∧ c.isLower = true) ∧
        (∀ d t, ("MyComponent" : String).data = d :: t → d.isUpper = true →
          ∃ rest, n.camelCase.data = d.toLower :: rest) :=
  ⟨by decide, camel_first_char_lowercase "MyComponent" (by decide)⟩

/-- C7: after a non-empty lowercase word, a hyphen followed by a lowercase
letter is collapsed (the hyphen removed, the letter uppercased), while a
hyphen followed by a digit or an uppercase letter is left verbatim — in both
the camel case and the pascal case. -/
theorem hyphen_collapse_only_before_lowercase (p : String) (d : Char) (t : List Char)
    (hp : isLowerWord p = true)
    (hd : d.isLower = true ∨ d.isDigit = true ∨ d.isUpper = true) :
    ∃ c0 r, p.data = c0 :: r ∧
      normalizeComponentName (p ++ ⟨'-' :: d :: t⟩) =
        some ⟨⟨c0 :: (r ++ (if d.isLower then d.toUpper :: collapseHyphens t
                            else '-' :: d :: collapseHyphens t))⟩,
              ⟨c0.toUpper :: (r ++ (if d.isLower then d.toUpper :: collapseHyphens t
                            else '-' :: d :: collapseHyphens t))⟩⟩ := by
  obtain ⟨hne, hall⟩ := (isLowerWord_iff p).1 hp
  obtain ⟨c0, r, hp0⟩ : ∃ c0 r, p.data = c0 :: r := by
    cases hw : p.data with
    | nil => exact absurd hw hne
    | cons c0 r => exact ⟨c0, r, rfl⟩
  have hX : collapseHyphens ('-' :: d :: t) =
      (if d.isLower then d.toUpper :: collapseHyphens t
       else '-' :: d :: collapseHyphens t) := by
    by_cases hl : d.isLower = true
    · rw [collapseHyphens_hyphen_lower d t hl, if_pos hl]
    · have hdn : d ≠ '-' := by
        rcases hd with h1 | h1 | h1
        · exact absurd h1 hl
        · exact ne_hyphen_of_isDigit d h1
        · exact ne_hyphen_of_isUpper d h1
      rw [collapseHyphens_hyphen_not_lower d t (by simpa using hl),
        collapseHyphens_cons_of_ne d t hdn, if_neg hl]
  have hdata : (p ++ (⟨'-' :: d :: t⟩ : String)).data = p.data ++ '-' :: d :: t := by
    rw [String.data_append]
  have hcamel : collapseHyphens ((p ++ (⟨'-' :: d :: t⟩ : String)).data) =
      c0 :: (r ++ (if d.isLower then d.toUpper :: collapseHyphens t
                   else '-' :: d :: collapseHyphens t)) := by
    rw [hdata, collapseHyphens_append_of_no_hyphen p.data _
      (fun c hc => ne_hyphen_of_isLower c (hall c hc)), hX, hp0]
    simp
  have hc0 : c0.isUpper = false :=
    isUpper_eq_false_of_isLower c0 (hall c0 (hp0 ▸ List.mem_cons_self c0 r))
  refine ⟨c0, r, hp0, ?_⟩
  rw [normalizeComponentName, hcamel, lowerFirstIfUpper_of_not_upper _ _ hc0]

theorem hyphen_collapse_only_before_lowercase_witness :
    (isLowerWord "my" = true ∧
      (('2' : Char).isLower = true ∨ ('2' : Char).isDigit = true ∨
        ('2' : Char).isUpper = true)) ∧
      ∃ c0 r, ("my" : String).data = c0 :: r ∧
        normalizeComponentName ("my" ++ ⟨'-' :: '2' :: ['n', 'd']⟩) =
          some ⟨⟨c0 :: (r ++ (if ('2' : Char).isLower
                              then ('2' : Char).toUpper :: collapseHyphens ['n', 'd']
                              else '-' :: '2' :: collapseHyphens ['n', 'd']))⟩,
                ⟨c0.toUpper :: (r ++ (if ('2' : Char).isLower
                              then ('2' : Char).toUpper :: collapseHyphens ['n', 'd']
                              else '-' :: '2' :: collapseHyphens ['n', 'd']))⟩⟩ :=
  ⟨⟨by decide, by decide⟩,
   hyphen_collapse_only_before_lowercase "my" '2' ['n', 'd'] (by decide) (by decide)⟩

example : ("my" ++ (⟨'-' :: '2' :: ['n', 'd']⟩ : String)) = "my-2nd" := by decide

/-! ## Kebab-case inputs (C1) -/

lemma kebabData_cons_cons (w v : List Char) (ws : List (List Char)) :
    kebabData (w :: v :: ws) = w ++ '-' :: kebabData (v :: ws) := rfl

lemma kebabJoin_cons_cons (w v : String) (ws : List String) :
    kebabJoin (w :: v :: ws) = w ++ "-" ++ kebabJoin (v :: ws) := rfl

lemma data_kebabJoin : ∀ ws : List String,
    (kebabJoin ws).data = kebabData (ws.map String.data)
  | [] => rfl
  | [_] => rfl
  | w :: v :: ws => by
    rw [kebabJoin_cons_cons, String.data_append, String.data_append,
      data_kebabJoin (v :: ws)]
    simp [kebabData_cons_cons]

lemma collapseHyphens_of_all_lower (w : List Char)
    (hw : ∀ c ∈ w, c.isLower = true) : collapseHyphens w = w := by
  have h := collapseHyphens_append_of_no_hyphen w []
    (fun c hc => ne_hyphen_of_isLower c (hw c hc))
  simpa [show collapseHyphens [] = [] from rfl] using h

/-- Collapsing a hyphen-prefixed kebab tail capitalizes each word. -/
lemma collapseHyphens_hyphen_kebab : ∀ (ws : List (List Char)) (v : List Char),
    v ≠ [] → (∀ c ∈ v, c.isLower = true) →
    (∀ u ∈ ws, u ≠ [] ∧ ∀ c ∈ u, c.isLower = true) →
    collapseHyphens ('-' :: kebabData (v :: ws)) = camelTail (v :: ws)
  | [], v, hvne, hvlow, _ => by
    obtain ⟨c, v', rfl⟩ : ∃ c v', v = c :: v' := by
      cases v with
      | nil => exact absurd rfl hvne
      | cons c v' => exact ⟨c, v', rfl⟩
    rw [show kebabData [c :: v'] = c :: v' from rfl,
      collapseHyphens_hyphen_lower c v' (hvlow c (List.mem_cons_self c v')),
      collapseHyphens_of_all_lower v' (fun d hd => hvlow d (List.mem_cons_of_mem c hd))]
    simp [camelTail, capitalizeFirst]
  | u :: us, v, hvne, hvlow, hws => by
    obtain ⟨c, v', rfl⟩ : ∃ c v', v = c :: v' := by
      cases v with
      | nil => exact absurd rfl hvne
      | cons c v' => exact ⟨c, v', rfl⟩
    rw [kebabData_cons_cons, List.cons_append,
      collapseHyphens_hyphen_lower c _ (hvlow c (List.mem_cons_self c v')),
      collapseHyphens_append_of_no_hyphen v' _
        (fun d hd => ne_hyphen_of_isLower d (hvlow d (List.mem_cons_of_mem c hd))),
      collapseHyphens_hyphen_kebab us u (hws u (List.mem_cons_self u us)).1
        (hws u (List.mem_cons_self u us)).2
        (fun x hx => hws x (List.mem_cons_of_mem u hx))]
    simp [camelTail, capitalizeFirst]

/-- Collapsing a full kebab word list: the first word passes through, each
later word is capitalized and appended. -/
lemma collapseHyphens_kebabData (w : List Char) (ws : List (List Char))
    (hw : ∀ c ∈ w, c.isLower = true)
    (hws : ∀ v ∈ ws, v ≠ [] ∧ ∀ c ∈ v, c.isLower = true) :
    collapseHyphens (kebabData (w :: ws)) = w ++ camelTail ws := by
  cases ws with
  | nil =>
    rw [show kebabData [w] = w from rfl, collapseHyphens_of_all_lower w hw]
    simp [camelTail]
  | cons v ws' =>
    rw [kebabData_cons_cons,
      collapseHyphens_append_of_no_hyphen w _
        (fun d hd => ne_hyphen_of_isLower d (hw d hd)),
      collapseHyphens_hyphen_kebab ws' v (hws v (List.mem_cons_self v ws')).1
        (hws v (List.mem_cons_self v ws')).2
        (fun x hx => hws x (List.mem_cons_of_mem v hx))]

/-- C1: for every valid kebab-case input `word1-word2-...-wordN` — a
non-empty list of non-empty lowercase-letter words joined by single
hyphens — the camel case is `word1` followed by each subsequent word with
its first letter capitalized, concatenated without hyphens, and the pascal
case is the same string with its first letter uppercase. -/
theorem kebab_case_normalization (ws : List String) (hne : ws ≠ [])
    (hw : ∀ w ∈ ws, isLowerWord w = true) :
    normalizeComponentName (kebabJoin ws) =
      some ⟨specCamelCase ws, specPascalCase ws⟩ := by
  obtain ⟨w, rest, rfl⟩ : ∃ w rest, ws = w :: rest := by
    cases ws with
    | nil => exact absurd rfl hne
    | cons w rest => exact ⟨w, rest, rfl⟩
  obtain ⟨hwne, hwlow⟩ := (isLowerWord_iff w).1 (hw w (List.mem_cons_self w rest))
  obtain ⟨c0, r, hw0⟩ : ∃ c0 r, w.data = c0 :: r := by
    cases hq : w.data with
    | nil => exact absurd hq hwne
    | cons c0 r => exact ⟨c0, r, rfl⟩
  have hck : collapseHyphens ((kebabJoin (w :: rest)).data) =
      w.data ++ camelTail (rest.map String.data) := by
    rw [data_kebabJoin]
    exact collapseHyphens_kebabData w.data (rest.map String.data) hwlow
      (by
        intro v hv
        obtain ⟨u, hu, rfl⟩ := List.mem_map.1 hv
        exact (isLowerWord_iff u).1 (hw u (List.mem_cons_of_mem w hu)))
  have hc0 : c0.isUpper = false :=
    isUpper_eq_false_of_isLower c0 (hwlow c0 (hw0 ▸ List.mem_cons_self c0 r))
  have hsplit : w.data ++ camelTail (rest.map String.data) =
      c0 :: (r ++ camelTail (rest.map String.data)) := by
    rw [hw0, List.cons_append]
  rw [normalizeComponentName, hck, hsplit, lowerFirstIfUpper_of_not_upper _ _ hc0]
  have hcamel : specCamelCase (w :: rest) =
      ⟨c0 :: (r ++ camelTail (rest.map String.data))⟩ := by
    rw [specCamelCase, ← hsplit]
  have hpascal : specPascalCase (w :: rest) =
      ⟨c0.toUpper :: (r ++ camelTail (rest.map String.data))⟩ := by
    rw [specPascalCase, hcamel]
    rfl
  rw [hcamel, hpascal]

theorem kebab_case_normalization_witness :
    (["my", "component"] ≠ ([] : List String) ∧
      ∀ w ∈ ["my", "component"], isLowerWord w = true) ∧
    normalizeComponentName (kebabJoin ["my", "component"]) =
      some ⟨specCamelCase ["my", "component"], specPascalCase ["my", "component"]⟩ :=
  ⟨⟨by decide, by decide⟩,
   kebab_case_normalization ["my", "component"] (by decide) (by decide)⟩

example : kebabJoin ["my", "component"] = "my-component" := by decide

example : specCamelCase ["my", "component"] = "myComponent" ∧
    specPascalCase ["my", "component"] = "MyComponent" := by decide

/-! ## Unfolding the handler on the main path -/

lemma runCreateLWC_success {σ : Type} (impl : FSImpl σ) (st st1 st2 : σ)
    (td raw : String) (opts : List FileLabel) (n : NormalizedName)
    (h1 : raw ≠ "") (hn : normalizeComponentName raw = some n) (h2 : opts ≠ [])
    (hg : (if impl.existsSync st (td ++ "/" ++ n.camelCase) then Except.ok st
           else impl.mkdirSync st (td ++ "/" ++ n.camelCase)) = Except.ok st1)
    (hwf : writeFiles impl (td ++ "/" ++ n.camelCase) n.camelCase n.pascalCase st1 opts
      = (st2, none)) :
    runCreateLWC impl st ⟨some td, some raw, some opts⟩ =
      (st2, [Event.showInfo ("LWC component '" ++ n.camelCase ++ "' created in '"
        ++ (td ++ "/" ++ n.camelCase) ++ "'.")]) := by
  simp [runCreateLWC, h1, hn, h2, hg, hwf]

lemma runCreateLWC_mkdir_error {σ : Type} (impl : FSImpl σ) (st : σ)
    (td raw : String) (opts : List FileLabel) (n : NormalizedName) (m : String)
    (h1 : raw ≠ "") (hn : normalizeComponentName raw = some n) (h2 : opts ≠ [])
    (hg : (if impl.existsSync st (td ++ "/" ++ n.camelCase) then Except.ok st
           else impl.mkdirSync st (td ++ "/" ++ n.camelCase)) = Except.error m) :
    runCreateLWC impl st ⟨some td, some raw, some opts⟩ =
      (st, [Event.showError ("Error creating LWC: " ++ m)]) := by
  simp [runCreateLWC, h1, hn, h2, hg]

lemma runCreateLWC_write_error {σ : Type} (impl : FSImpl σ) (st st1 st2 : σ)
    (td raw : String) (opts : List FileLabel) (n : NormalizedName) (m : String)
    (h1 : raw ≠ "") (hn : normalizeComponentName raw = some n) (h2 : opts ≠ [])
    (hg : (if impl.existsSync st (td ++ "/" ++ n.camelCase) then Except.ok st
           else impl.mkdirSync st (td ++ "/" ++ n.camelCase)) = Except.ok st1)
    (hwf : writeFiles impl (td ++ "/" ++ n.camelCase) n.camelCase n.pascalCase st1 opts
      = (st2, some m)) :
    runCreateLWC impl st ⟨some td, some raw, some opts⟩ =
      (st2, [Event.showError ("Error creating LWC: " ++ m)]) := by
  simp [runCreateLWC, h1, hn, h2, hg, hwf]

/-! ## Claims about the handler -/

/-- C4: dismissing the name input box or the file-type quick pick makes the
handler return early: for any filesystem implementation the state is
unchanged (no directory created, no file written) and no notification of any
kind is shown. -/
theorem prompt_dismissal_is_silent {σ : Type} (impl : FSImpl σ) (st : σ)
    (td raw : String) (fo : Option (List FileLabel)) :
    runCreateLWC impl st ⟨some td, none, fo⟩ = (st, []) ∧
    runCreateLWC impl st ⟨some td, some raw, none⟩ = (st, []) := by
  refine ⟨rfl, ?_⟩
  by_cases h : raw = ""
  · simp [runCreateLWC, h]
  · obtain ⟨c, rest, -, h2⟩ := normalizeComponentName_of_ne_empty raw h
    simp [runCreateLWC, h, h2]

/-- C9: confirming the file-type quick pick with nothing selected is treated
exactly like a cancellation: the handler returns early with the state
unchanged and no notification. -/
theorem empty_selection_is_silent {σ : Type} (impl : FSImpl σ) (st : σ)
    (td raw : String) :
    runCreateLWC impl st ⟨some td, some raw, some []⟩ = (st, []) := by
  by_cases h : raw = ""
  · simp [runCreateLWC, h]
  · obtain ⟨c, rest, -, h2⟩ := normalizeComponentName_of_ne_empty raw h
    simp [runCreateLWC, h, h2]

/-- A failing write inside the `forEach` loop is a failure of the underlying
`writeFileSync` on one of the selected files. -/
lemma writeFiles_error_source {σ : Type} (impl : FSImpl σ) (dir camel pascal : String) :
    ∀ (opts : List FileLabel) (st st' : σ) (m : String),
      writeFiles impl dir camel pascal st opts = (st', some m) →
      ∃ st0 f, f ∈ opts ∧
        impl.writeFileSync st0 (dir ++ "/" ++ camel ++ "." ++ fileExt f)
          (fileContent pascal f) = Except.error m
  | [], st, st', m, h => by simp [writeFiles] at h
  | f :: rest, st, st', m, h => by
    rw [writeFiles] at h
    cases hw : impl.writeFileSync st (dir ++ "/" ++ camel ++ "." ++ fileExt f)
        (fileContent pascal f) with
    | error m' =>
      rw [hw] at h
      simp at h
      exact ⟨st, f, List.mem_cons_self f rest, by rw [hw, h.2]⟩
    | ok st2 =>
      rw [hw] at h
      obtain ⟨st0, g, hg, hgw⟩ := writeFiles_error_source impl dir camel pascal rest st2 st' m h
      exact ⟨st0, g, List.mem_cons_of_mem f hg, hgw⟩

/-- C5: for every filesystem implementation and every run that reaches the
filesystem phase, the handler returns normally (nothing propagates) with
exactly one notification: on success the informational message, and on any
thrown filesystem error a single error notification whose text appends the
underlying error's message to "Error creating LWC: ".  The returned state is
the one reached when the error was thrown: no retry happens and no
compensating (rollback) operation exists in the handler. -/
theorem errors_caught_at_top {σ : Type} (impl : FSImpl σ) (st : σ)
    (td raw : String) (opts : List FileLabel) (h1 : raw ≠ "") (h2 : opts ≠ []) :
    ∃ n, normalizeComponentName raw = some n ∧
      ∃ st', (runCreateLWC impl st ⟨some td, some raw, some opts⟩ =
          (st', [Event.showInfo ("LWC component '" ++ n.camelCase ++ "' created in '"
            ++ (td ++ "/" ++ n.camelCase) ++ "'.")])) ∨
        (∃ m, runCreateLWC impl st ⟨some td, some raw, some opts⟩ =
            (st', [Event.showError ("Error creating LWC: " ++ m)]) ∧
          ((impl.existsSync st (td ++ "/" ++ n.camelCase) = false ∧
            impl.mkdirSync st (td ++ "/" ++ n.camelCase) = Except.error m) ∨
           ∃ st0 f, f ∈ opts ∧
             impl.writeFileSync st0 (td ++ "/" ++ n.camelCase ++ "/" ++ n.camelCase
               ++ "." ++ fileExt f) (fileContent n.pascalCase f) = Except.error m)) := by
  obtain ⟨c, rest, -, hn⟩ := normalizeComponentName_of_ne_empty raw h1
  refine ⟨_, hn, ?_⟩
  by_cases hex : impl.existsSync st (td ++ "/" ++ String.mk (c :: rest)) = true
  · have hg : (if impl.existsSync st (td ++ "/" ++ String.mk (c :: rest))
        then Except.ok st
        else impl.mkdirSync st (td ++ "/" ++ String.mk (c :: rest))) = Except.ok st := by
      rw [if_pos hex]
    cases hwf : writeFiles impl (td ++ "/" ++ String.mk (c :: rest)) (String.mk (c :: rest))
        (String.mk (c.toUpper :: rest)) st opts with
    | mk st2 r =>
      cases r with
      | none =>
        exact ⟨st2, Or.inl (runCreateLWC_success impl st st st2 td raw opts _ h1 hn h2 hg hwf)⟩
      | some m =>
        refine ⟨st2, Or.inr ⟨m,
          runCreateLWC_write_error impl st st st2 td raw opts _ m h1 hn h2 hg hwf, Or.inr ?_⟩⟩
        exact writeFiles_error_source impl _ _ _ opts st st2 m hwf
  · have hex' : impl.existsSync st (td ++ "/" ++ String.mk (c :: rest)) = false := by
      simpa using hex
    have hg0 : (if impl.existsSync st (td ++ "/" ++ String.mk (c :: rest))
        then Except.ok st
        else impl.mkdirSync st (td ++ "/" ++ String.mk (c :: rest))) =
        impl.mkdirSync st (td ++ "/" ++ String.mk (c :: rest)) := by
      rw [if_neg (by simp [hex'])]
    cases hmk : impl.mkdirSync st (td ++ "/" ++ String.mk (c :: rest)) with
    | error m =>
      exact ⟨st, Or.inr ⟨m,
        runCreateLWC_mkdir_error impl st td raw opts _ m h1 hn h2 (hg0.trans hmk),
        Or.inl ⟨hex', rfl⟩⟩⟩
    | ok st1 =>
      cases hwf : writeFiles impl (td ++ "/" ++ String.mk (c :: rest)) (String.mk (c :: rest))
          (String.mk (c.toUpper :: rest)) st1 opts with
      | mk st2 r =>
        cases r with
        | none =>
          exact ⟨st2, Or.inl (runCreateLWC_success impl st st1 st2 td raw opts _ h1 hn h2
            (hg0.trans hmk) hwf)⟩
        | some m =>
          refine ⟨st2, Or.inr ⟨m,
            runCreateLWC_write_error impl st st1 st2 td raw opts _ m h1 hn h2
              (hg0.trans hmk) hwf, Or.inr ?_⟩⟩
          exact writeFiles_error_source impl _ _ _ opts st1 st2 m hwf

theorem errors_caught_at_top_witness :
    ("my-component" ≠ "" ∧ [FileLabel.HTML] ≠ []) ∧
      ∃ n, normalizeComponentName "my-component" = some n ∧
        ∃ st', (runCreateLWC memFS (⟨[], []⟩ : FSState)
            ⟨some "root", some "my-component", some [FileLabel.HTML]⟩ =
            (st', [Event.showInfo ("LWC component '" ++ n.camelCase ++ "' created in '"
              ++ ("root" ++ "/" ++ n.camelCase) ++ "'.")])) ∨
          (∃ m, runCreateLWC memFS (⟨[], []⟩ : FSState)
              ⟨some "root", some "my-component", some [FileLabel.HTML]⟩ =
              (st', [Event.showError ("Error creating LWC: " ++ m)]) ∧
            ((memFS.existsSync ⟨[], []⟩ ("root" ++ "/" ++ n.camelCase) = false ∧
              memFS.mkdirSync ⟨[], []⟩ ("root" ++ "/" ++ n.camelCase) = Except.error m) ∨
             ∃ st0 f, f ∈ [FileLabel.HTML] ∧
               memFS.writeFileSync st0 ("root" ++ "/" ++ n.camelCase ++ "/" ++ n.camelCase
                 ++ "." ++ fileExt f) (fileContent n.pascalCase f) = Except.error m)) :=
  ⟨⟨by decide, by decide⟩,
   errors_caught_at_top memFS ⟨[], []⟩ "root" "my-component" [FileLabel.HTML]
     (by decide) (by decide)⟩

/-! ## Runs over the in-memory filesystem -/

lemma string_append_assoc (a b c : String) : a ++ b ++ c = a ++ (b ++ c) := by
  apply String.ext
  simp [String.data_append]

lemma string_append_right_inj (a x y : String) (h : a ++ x = a ++ y) : x = y := by
  have hd := congrArg String.data h
  rw [String.data_append, String.data_append] at hd
  exact String.ext (List.append_cancel_left hd)

lemma fileExt_inj (f g : FileLabel) (h : fileExt f = fileExt g) : f = g := by
  cases f <;> cases g <;> first
    | rfl
    | exact absurd h (by decide)

lemma filePath_inj (dir camel : String) (f g : FileLabel)
    (h : dir ++ "/" ++ camel ++ "." ++ fileExt f = dir ++ "/" ++ camel ++ "." ++ fileExt g) :
    f = g :=
  fileExt_inj f g (string_append_right_inj (dir ++ "/" ++ camel ++ ".") _ _ h)

lemma getFile_push_self (ds : List String) (fl : List (String × String)) (p c : String) :
    getFile ⟨ds, (p, c) :: fl⟩ p = some c := by
  simp [getFile, List.find?]

lemma getFile_push_ne (ds : List String) (fl : List (String × String)) (p c q : String)
    (h : q ≠ p) :
    getFile ⟨ds, (p, c) :: fl⟩ q = getFile ⟨ds, fl⟩ q := by
  have hd : (decide (p = q)) = false := decide_eq_false (fun he => h he.symm)
  simp [getFile, List.find?, hd]

lemma getFile_congr_files (st1 st2 : FSState) (q : String) (h : st1.files = st2.files) :
    getFile st1 q = getFile st2 q := by
  rw [getFile, getFile, h]

/-- Over the in-memory filesystem the write loop always succeeds, touches no
directory, gives every selected file its template content, and leaves every
other path unchanged. -/
lemma writeFiles_memFS (dir camel pascal : String) :
    ∀ (opts : List FileLabel) (st : FSState),
      ∃ st', writeFiles memFS dir camel pascal st opts = (st', none) ∧
        st'.dirs = st.dirs ∧
        (∀ f ∈ opts, getFile st' (dir ++ "/" ++ camel ++ "." ++ fileExt f) =
          some (fileContent pascal f)) ∧
        (∀ q, (∀ f ∈ opts, q ≠ dir ++ "/" ++ camel ++ "." ++ fileExt f) →
          getFile st' q = getFile st q)
  | [], st => ⟨st, rfl, rfl, by simp, fun _ _ => rfl⟩
  | f :: rest, st => by
    obtain ⟨st', hwf, hdirs, hset, hframe⟩ := writeFiles_memFS dir camel pascal rest
      ⟨st.dirs, (dir ++ "/" ++ camel ++ "." ++ fileExt f, fileContent pascal f) :: st.files⟩
    refine ⟨st', ?_, hdirs, ?_, ?_⟩
    · rw [writeFiles]
      exact hwf
    · intro g hg
      rcases List.mem_cons.1 hg with rfl | hg'
      · by_cases hf : g ∈ rest
        · exact hset g hf
        · rw [hframe _ (fun h hh hq => hf ((filePath_inj dir camel g h hq) ▸ hh))]
          exact getFile_push_self st.dirs st.files _ _
      · exact hset g hg'
    · intro q hq
      rw [hframe q (fun g hg => hq g (List.mem_cons_of_mem f hg))]
      exact getFile_push_ne st.dirs st.files _ _ q (hq f (List.mem_cons_self f rest))

/-- The component-directory step of the handler over `memFS`: whether or not
the directory already exists, it results in a state with the same files (a
new directory is recorded only when missing). -/
lemma memFS_guard_ok (st : FSState) (dir : String) :
    ∃ st1 : FSState, (if memFS.existsSync st dir then Except.ok st
        else memFS.mkdirSync st dir) = Except.ok st1 ∧
      st1.files = st.files ∧
      (memFS.existsSync st dir = true → st1.dirs = st.dirs) := by
  by_cases hex : memFS.existsSync st dir = true
  · exact ⟨st, by rw [if_pos hex], rfl, fun _ => rfl⟩
  · have hex' : pathExists st dir = false := by
      have hb : memFS.existsSync st dir = false := by simpa using hex
      exact hb
    refine ⟨⟨dir :: st.dirs, st.files⟩, ?_, rfl, fun hcon => absurd hcon hex⟩
    rw [if_neg hex]
    simp [memFS, hex']

/-- C3: confirming the multi-select with only "HTML" selected writes exactly
one file, `<camelCase>.html` inside the component directory, holding the
two-line template, and leaves every other path (in particular any `.js` or
`.css` target) untouched; a success notification follows. -/
theorem html_only_writes_single_template (st : FSState) (td raw : String)
    (h : raw ≠ "") :
    ∃ n st', normalizeComponentName raw = some n ∧
      runCreateLWC memFS st ⟨some td, some raw, some [FileLabel.HTML]⟩ =
        (st', [Event.showInfo ("LWC component '" ++ n.camelCase ++ "' created in '"
          ++ (td ++ "/" ++ n.camelCase) ++ "'.")]) ∧
      getFile st' (td ++ "/" ++ n.camelCase ++ "/" ++ n.camelCase ++ ".html") =
        some "<template>\n\n</template>" ∧
      ∀ q, q ≠ td ++ "/" ++ n.camelCase ++ "/" ++ n.camelCase ++ ".html" →
        getFile st' q = getFile st q := by
  obtain ⟨c, rest, -, hn⟩ := normalizeComponentName_of_ne_empty raw h
  obtain ⟨st1, hg, hfiles, -⟩ := memFS_guard_ok st (td ++ "/" ++ String.mk (c :: rest))
  obtain ⟨st', hwf, -, hset, hframe⟩ := writeFiles_memFS
    (td ++ "/" ++ String.mk (c :: rest)) (String.mk (c :: rest))
    (String.mk (c.toUpper :: rest)) [FileLabel.HTML] st1
  have hpath : td ++ "/" ++ String.mk (c :: rest) ++ "/" ++ String.mk (c :: rest)
      ++ "." ++ fileExt FileLabel.HTML =
      td ++ "/" ++ String.mk (c :: rest) ++ "/" ++ String.mk (c :: rest) ++ ".html" := by
    rw [string_append_assoc]
    rfl
  refine ⟨_, st', hn,
    runCreateLWC_success memFS st st1 st' td raw [FileLabel.HTML] _ h hn (by decide) hg hwf,
    ?_, ?_⟩
  · rw [← hpath]
    exact hset FileLabel.HTML (List.mem_cons_self _ _)
  · intro q hq
    rw [hframe q ?_]
    · exact getFile_congr_files st1 st q hfiles
    · intro f hf
      rcases List.mem_cons.1 hf with rfl | hf'
      · rw [hpath]
        exact hq
      · exact absurd hf' (by simp)

theorem html_only_writes_single_template_witness :
    "my-component" ≠ "" ∧
      ∃ n st', normalizeComponentName "my-component" = some n ∧
        runCreateLWC memFS (⟨[], []⟩ : FSState)
            ⟨some "root", some "my-component", some [FileLabel.HTML]⟩ =
          (st', [Event.showInfo ("LWC component '" ++ n.camelCase ++ "' created in '"
            ++ ("root" ++ "/" ++ n.camelCase) ++ "'.")]) ∧
        getFile st' ("root" ++ "/" ++ n.camelCase ++ "/" ++ n.camelCase ++ ".html") =
          some "<template>\n\n</template>" ∧
        ∀ q, q ≠ "root" ++ "/" ++ n.camelCase ++ "/" ++ n.camelCase ++ ".html" →
          getFile st' q = getFile (⟨[], []⟩ : FSState) q :=
  ⟨by decide, html_only_writes_single_template ⟨[], []⟩ "root" "my-component" (by decide)⟩

/-- C10: when the component directory already exists the handler reuses it —
no directory is created and no error is raised — and every selected target
file is written with its template content, silently overwriting whatever was
there before; the run ends with the success notification. -/
theorem existing_dir_reused_files_overwritten (st : FSState) (td raw : String)
    (opts : List FileLabel) (n : NormalizedName)
    (hn : normalizeComponentName raw = some n) (h2 : opts ≠ [])
    (hex : memFS.existsSync st (td ++ "/" ++ n.camelCase) = true) :
    ∃ st', runCreateLWC memFS st ⟨some td, some raw, some opts⟩ =
        (st', [Event.showInfo ("LWC component '" ++ n.camelCase ++ "' created in '"
          ++ (td ++ "/" ++ n.camelCase) ++ "'.")]) ∧
      st'.dirs = st.dirs ∧
      ∀ f ∈ opts, getFile st' (td ++ "/" ++ n.camelCase ++ "/" ++ n.camelCase
        ++ "." ++ fileExt f) = some (fileContent n.pascalCase f) := by
  have h1 : raw ≠ "" := by
    intro he
    subst he
    exact Option.noConfusion hn
  obtain ⟨st', hwf, hdirs, hset, -⟩ := writeFiles_memFS
    (td ++ "/" ++ n.camelCase) n.camelCase n.pascalCase opts st
  exact ⟨st',
    runCreateLWC_success memFS st st st' td raw opts n h1 hn h2 (by rw [if_pos hex]) hwf,
    hdirs, hset⟩

theorem existing_dir_reused_files_overwritten_witness :
    (normalizeComponentName "my-component" = some ⟨"myComponent", "MyComponent"⟩ ∧
      ([FileLabel.JS, FileLabel.HTML] : List FileLabel) ≠ [] ∧
      memFS.existsSync ⟨["root/myComponent"],
        [("root/myComponent/myComponent.html", "old")]⟩
        ("root" ++ "/" ++ ("myComponent" : String)) = true) ∧
      ∃ st', runCreateLWC memFS
          (⟨["root/myComponent"], [("root/myComponent/myComponent.html", "old")]⟩ : FSState)
          ⟨some "root", some "my-component", some [FileLabel.JS, FileLabel.HTML]⟩ =
          (st', [Event.showInfo ("LWC component '" ++ ("myComponent" : String)
            ++ "' created in '" ++ ("root" ++ "/" ++ ("myComponent" : String)) ++ "'.")]) ∧
        st'.dirs = (⟨["root/myComponent"],
          [("root/myComponent/myComponent.html", "old")]⟩ : FSState).dirs ∧
        ∀ f ∈ [FileLabel.JS, FileLabel.HTML],
          getFile st' ("root" ++ "/" ++ ("myComponent" : String) ++ "/"
            ++ ("myComponent" : String) ++ "." ++ fileExt f) =
            some (fileContent ("MyComponent" : String) f) :=
  ⟨⟨by decide, by decide, by decide⟩,
   existing_dir_reused_files_overwritten
     ⟨["root/myComponent"], [("root/myComponent/myComponent.html", "old")]⟩
     "root" "my-component" [FileLabel.JS, FileLabel.HTML]
     ⟨"myComponent", "MyComponent"⟩ (by decide) (by decide) (by decide)⟩

end SimpleCreateLWC
